import Mathlib

/-
Shallow embedding of the 8-bit CPU emulator's utility module (src/utils.py):
the numeric codec (binary_to_decimal, decimal_to_binary, hex_to_binary),
the RAM block of 16 byte registers, the program counter, the ALU, the three
flags and the ring counter, together with theorems checking the
specification's claims against these definitions.

Words are modelled as Lean String values (Python character strings of '0'
and '1'), integers as Nat / Int, and Python exceptions as an explicit
error type carried by Except.
-/

/-- Python exceptions raised by the code paths modelled here. -/
inductive PyError where
  | valueError
  | typeError
  | indexError
  | assertionError
  | unboundLocal
  | zeroDivisionError
deriving DecidableEq

/-- True for the two binary digit characters. -/
def isBitChar (c : Char) : Bool := c == '0' || c == '1'

/-- True when every character of the string is a binary digit. -/
def isBitString (s : String) : Bool := s.data.all isBitChar

/-- True for an n-character bit string. -/
def isWordN (s : String) (n : Nat) : Bool :=
  s.data.length == n && s.data.all isBitChar

/-- Numeric value of a most-significant-bit-first list of bit characters:
the number denoted by a Python binary digit string. -/
def bitsToNat : List Char → Nat
  | [] => 0
  | c :: cs => (if c = '1' then 1 else 0) * 2 ^ cs.length + bitsToNat cs

/-- Python int(s, 2) on the strings this module feeds it: the value of a
nonempty string of binary digits, ValueError otherwise. -/
def intOfString2 (s : String) : Except PyError Nat :=
  if s.data ≠ [] ∧ s.data.all isBitChar then Except.ok (bitsToNat s.data)
  else Except.error PyError.valueError

/-- Value of a hexadecimal digit character, none for other characters. -/
def hexDigitVal (c : Char) : Option Nat :=
  if '0' ≤ c ∧ c ≤ '9' then some (c.toNat - '0'.toNat)
  else if 'a' ≤ c ∧ c ≤ 'f' then some (c.toNat - 'a'.toNat + 10)
  else if 'A' ≤ c ∧ c ≤ 'F' then some (c.toNat - 'A'.toNat + 10)
  else none

/-- Value of a list of hexadecimal digit characters, most significant first. -/
def hexNatVal (l : List Char) : Nat :=
  l.foldl (fun acc c => 16 * acc + (hexDigitVal c).getD 0) 0

/-- Python int(s, 16) on the strings this module feeds it: the value of a
nonempty string of hexadecimal digits, ValueError otherwise. -/
def intOfString16 (s : String) : Except PyError Nat :=
  if s.data ≠ [] ∧ s.data.all (fun c => (hexDigitVal c).isSome) then
    Except.ok (hexNatVal s.data)
  else Except.error PyError.valueError

/-- Binary digit characters of n, most significant first, with no leading
zeros (empty for 0).  Fuel-based recursion on repeated halving, so that it
reduces definitionally; the fuel is always taken to be n itself. -/
def natBinAux : Nat → Nat → List Char
  | 0, _ => []
  | fuel + 1, n =>
    if n = 0 then []
    else natBinAux fuel (n / 2) ++ [if n % 2 = 1 then '1' else '0']

/-- Binary digit characters of n, most significant first, no leading zeros. -/
def natBinList (n : Nat) : List Char := natBinAux n n

/-- Python bin(n)[2:] for a nonnegative n (bin(0)[2:] is the string 0). -/
def pyBinStr (n : Nat) : List Char := if n = 0 then ['0'] else natBinList n

/-- Python bin(i)[2:] for any int i: for a negative i, bin yields a string
starting with a minus sign and 0b, so dropping two characters leaves a
letter b in front of the digits of the absolute value. -/
def pyBinDrop2 (i : Int) : List Char :=
  if i < 0 then 'b' :: pyBinStr i.natAbs else pyBinStr i.toNat

/-- Python str.zfill on strings that do not start with a sign character:
left-pad with zero characters up to width w. -/
def zfill (l : List Char) (w : Nat) : List Char :=
  List.replicate (w - l.length) '0' ++ l

/-- src/utils.py binary_to_decimal: indexes character 0 (IndexError on the
empty string), then interprets the word as a two's-complement signed
integer driven by the word's own length. -/
def binary_to_decimal (s : String) : Except PyError Int :=
  if s.data = [] then Except.error PyError.indexError
  else if s.data.head? = some '1' then
    (intOfString2 s).map (fun u => (u : Int) - 2 ^ s.data.length)
  else
    (intOfString2 s).map (fun u => (u : Int))

/-- src/utils.py decimal_to_binary: two's-complement encode by adding 2^w
to a negative value, then bin()[2:] and zfill to the bit width. -/
def decimal_to_binary (d : Int) (w : Nat := 8) : String :=
  if d < 0 then String.mk (zfill (pyBinDrop2 (d + 2 ^ w)) w)
  else String.mk (zfill (pyBinDrop2 d) w)

/-- Python h.lstrip with the character set 0x: removes every leading
character that is a zero digit or the letter x. -/
def lstrip0x (h : String) : List Char :=
  h.data.dropWhile (fun c => c == '0' || c == 'x')

/-- src/utils.py hex_to_binary: lstrip the 0x character set, parse base 16,
convert to binary, zfill to the width and keep the first width characters. -/
def hex_to_binary (h : String) (w : Nat) : Except PyError String :=
  (intOfString16 (String.mk (lstrip0x h))).map
    (fun n => String.mk ((zfill (pyBinStr n) w).take w))

/-- Normalisation of a Python list index: a nonnegative index in range is
used as is, a negative index at least minus the length counts from the
end, anything else is an IndexError (none). -/
def pyNormIdx (len : Nat) (i : Int) : Option Nat :=
  if 0 ≤ i ∧ i < (len : Int) then some i.toNat
  else if -(len : Int) ≤ i ∧ i < 0 then some (i + len).toNat
  else none

/-- src/utils.py RAM: a list of 16 byte registers, each holding a word. -/
structure RAM where
  state : List String

/-- A freshly constructed RAM: 16 byte registers initialised to all zeros. -/
def RAM.new : RAM := ⟨List.replicate 16 "00000000"⟩

/-- src/utils.py RAM.read: Python list indexing into the register list,
then the selected register's read. -/
def RAM.read (r : RAM) (address : Int) : Except PyError String :=
  match pyNormIdx r.state.length address with
  | some k =>
    match r.state.get? k with
    | some w => Except.ok w
    | none => Except.error PyError.indexError
  | none => Except.error PyError.indexError

/-- src/utils.py RAM.write: assert the data is a string (always true at
this type) of length 8, then Python list indexing and the register write.
Note the asserts run before the indexing, and no check of the characters
of data is performed. -/
def RAM.write (r : RAM) (data : String) (address : Int) : Except PyError RAM :=
  if data.length = 8 then
    match pyNormIdx r.state.length address with
    | some k => Except.ok ⟨r.state.set k data⟩
    | none => Except.error PyError.indexError
  else Except.error PyError.assertionError

/-- src/utils.py ProgramCounter.advance: int(state, 2), increment modulo
2^4, bin()[2:].zfill(4), overwriting the stored word (returned here). -/
def ProgramCounter.advance (s : String) : Except PyError String :=
  (intOfString2 s).map (fun v => String.mk (zfill (pyBinStr ((v + 1) % 2 ^ 4)) 4))

/-- n consecutive advance calls of the program counter, stopping at the
first error. -/
def pcIterate : Nat → String → Except PyError String
  | 0, s => Except.ok s
  | n + 1, s => (ProgramCounter.advance s).bind (pcIterate n)

/-- src/utils.py ALU.update as a function of the current operand words a
and b: decode both operands as signed values, dispatch on the mode string
(a mode other than add and sub leaves the result variable unassigned and
Python raises UnboundLocalError at the encode), encode the result at width
8 and keep the first 8 characters of the encoding. -/
def ALU.update (a b mode : String) : Except PyError String :=
  (binary_to_decimal a).bind (fun va =>
    (binary_to_decimal b).bind (fun vb =>
      (if mode = "add" then Except.ok (va + vb)
       else if mode = "sub" then Except.ok (va - vb)
       else Except.error PyError.unboundLocal).bind (fun result =>
        Except.ok (String.mk ((decimal_to_binary result 8).data.take 8)))))

/-- src/utils.py ALU.read: update with the given mode, then return the
freshly overwritten state. -/
def ALU.read (a b mode : String) : Except PyError String := ALU.update a b mode

/-- src/utils.py FlagMinus.update: 1 when the watched word decodes to a
negative signed value, else 0. -/
def FlagMinus.update (watched : String) : Except PyError Nat :=
  (binary_to_decimal watched).map (fun v => if v < 0 then 1 else 0)

/-- src/utils.py FlagMinus.read: the source executes self.update(self),
passing two positional arguments to the one-argument update method, so
Python raises TypeError before any state is read or updated. -/
def FlagMinus.read (watched : String) : Except PyError Nat :=
  Except.error PyError.typeError

/-- src/utils.py FlagCarry.update as a function of the ALU operand words:
decodes both operands with binary_to_decimal (signed two's-complement) and
compares their sum against 2^7 - 1. -/
def FlagCarry.update (a b : String) : Except PyError Nat :=
  (binary_to_decimal a).bind (fun va =>
    (binary_to_decimal b).bind (fun vb =>
      Except.ok (if va + vb > 2 ^ 7 - 1 then (1 : Nat) else 0)))

/-- src/utils.py FlagCarry.read: returns the stored state without calling
update first. -/
def FlagCarry.read (state : Nat) : Nat := state

/-- src/utils.py FlagZero.update: 1 when the watched word decodes to 0. -/
def FlagZero.update (watched : String) : Except PyError Nat :=
  (binary_to_decimal watched).map (fun v => if v = 0 then 1 else 0)

/-- src/utils.py FlagZero.read: update, then return the fresh state. -/
def FlagZero.read (watched : String) : Except PyError Nat :=
  FlagZero.update watched

/-- src/utils.py RingCounter.advance as a function of the modulus and the
current state: Python raises ZeroDivisionError on a modulus of 0. -/
def RingCounter.advance (nTimeStates state : Nat) : Except PyError Nat :=
  if nTimeStates = 0 then Except.error PyError.zeroDivisionError
  else Except.ok ((state + 1) % nTimeStates)

/-- Specification-side reading of a word as an unsigned integer. -/
def unsignedVal (s : String) : Nat := bitsToNat s.data

/-- Specification-side reading of a word as a two's-complement signed
integer at the word's own length. -/
def twoCompVal (s : String) : Int :=
  if s.data.head? = some '1' then (bitsToNat s.data : Int) - 2 ^ s.data.length
  else (bitsToNat s.data : Int)

/-- Specification-side canonical encoding of n at width w: binary digits
left-padded with zeros. -/
def encodeWord (n w : Nat) : String := String.mk (zfill (pyBinStr n) w)

/-- True when an Except value carries a result rather than an error. -/
def exceptOk {ε α : Type} : Except ε α → Bool
  | Except.ok _ => true
  | Except.error _ => false

/-- The value of a bit list is below 2 to its length. -/
theorem bitsToNat_lt (l : List Char) : bitsToNat l < 2 ^ l.length := by
  induction l with
  | nil => simp [bitsToNat]
  | cons c cs ih =>
    simp only [bitsToNat, List.length_cons, pow_succ]
    by_cases h : c = '1' <;> simp [h] <;> omega

/-- Appending a digit multiplies the value by two and adds the digit. -/
theorem bitsToNat_append (l : List Char) (c : Char) :
    bitsToNat (l ++ [c]) = 2 * bitsToNat l + (if c = '1' then 1 else 0) := by
  induction l with
  | nil => simp [bitsToNat]
  | cons d ds ih =>
    by_cases hd : d = '1' <;>
      simp [bitsToNat, ih, hd, List.length_append, pow_succ] <;> ring

/-- Leading zero characters do not change the value of a bit list. -/
theorem bitsToNat_replicate_zero (k : Nat) (l : List Char) :
    bitsToNat (List.replicate k '0' ++ l) = bitsToNat l := by
  induction k with
  | zero => rfl
  | succ k ih => simp [List.replicate_succ, bitsToNat, ih]

/-- The fuel argument of natBinAux is irrelevant once at least the number
itself. -/
theorem natBinAux_fuel (fuel1 fuel2 n : Nat) (h1 : n ≤ fuel1) (h2 : n ≤ fuel2) :
    natBinAux fuel1 n = natBinAux fuel2 n := by
  induction fuel1 generalizing fuel2 n with
  | zero =>
    interval_cases n
    cases fuel2 <;> simp [natBinAux]
  | succ f ih =>
    cases fuel2 with
    | zero =>
      interval_cases n
      simp [natBinAux]
    | succ g =>
      by_cases hn : n = 0
      · simp [natBinAux, hn]
      · simp only [natBinAux, hn, if_false]
        rw [ih g (n / 2) (by omega) (by omega)]

/-- Unfolding natBinList one halving step. -/
theorem natBinList_succ (n : Nat) (hn : n ≠ 0) :
    natBinList n = natBinList (n / 2) ++ [if n % 2 = 1 then '1' else '0'] := by
  cases n with
  | zero => exact absurd rfl hn
  | succ m =>
    show natBinAux (m + 1) (m + 1) = _
    simp only [natBinAux, Nat.succ_ne_zero, if_false]
    rw [natBinAux_fuel m ((m + 1) / 2) ((m + 1) / 2) (by omega) le_rfl]
    rfl

/-- The digit list of n evaluates back to n. -/
theorem bitsToNat_natBinList (n : Nat) : bitsToNat (natBinList n) = n := by
  induction n using Nat.strong_induction_on with
  | _ n ih =>
    by_cases hn : n = 0
    · simp [hn, natBinList, natBinAux, bitsToNat]
    · rw [natBinList_succ n hn, bitsToNat_append, ih (n / 2) (by omega)]
      by_cases hp : n % 2 = 1 <;> simp [hp] <;> omega

/-- A number below 2 to the w has at most w binary digits. -/
theorem natBinList_length_le (n w : Nat) (h : n < 2 ^ w) :
    (natBinList n).length ≤ w := by
  induction n using Nat.strong_induction_on generalizing w with
  | _ n ih =>
    by_cases hn : n = 0
    · simp [hn, natBinList, natBinAux]
    · rw [natBinList_succ n hn]
      cases w with
      | zero => simp at h; omega
      | succ u =>
        have h2 : n / 2 < 2 ^ u := by
          have : (2 : Nat) ^ (u + 1) = 2 ^ u * 2 := pow_succ 2 u
          omega
        have := ih (n / 2) (by omega) u h2
        simp [List.length_append]
        omega

/-- Every character of the digit list of n is a binary digit. -/
theorem natBinList_all (n : Nat) : (natBinList n).all isBitChar = true := by
  induction n using Nat.strong_induction_on with
  | _ n ih =>
    by_cases hn : n = 0
    · simp [hn, natBinList, natBinAux]
    · rw [natBinList_succ n hn]
      simp only [List.all_append, Bool.and_eq_true]
      refine ⟨ih (n / 2) (by omega), ?_⟩
      by_cases hp : n % 2 = 1 <;> simp [hp, isBitChar]

/-- Two bit lists of the same length with the same value are equal. -/
theorem bits_inj (l1 l2 : List Char) (hb1 : l1.all isBitChar = true)
    (hb2 : l2.all isBitChar = true) (hlen : l1.length = l2.length)
    (hval : bitsToNat l1 = bitsToNat l2) : l1 = l2 := by
  induction l1 generalizing l2 with
  | nil =>
    cases l2 with
    | nil => rfl
    | cons d ds => simp at hlen
  | cons c cs ih =>
    cases l2 with
    | nil => simp at hlen
    | cons d ds =>
      simp only [List.all_cons, Bool.and_eq_true] at hb1 hb2
      simp only [List.length_cons, Nat.succ.injEq] at hlen
      have b1 := bitsToNat_lt cs
      have b2 := bitsToNat_lt ds
      rw [hlen] at b1
      simp only [bitsToNat, hlen] at hval
      have hif0 : (if ('0' : Char) = '1' then (1 : Nat) else 0) = 0 := by decide
      have hif1 : (if ('1' : Char) = '1' then (1 : Nat) else 0) = 1 := by decide
      have hbc : c = '0' ∨ c = '1' := by
        have := hb1.1
        simp [isBitChar] at this
        tauto
      have hbd : d = '0' ∨ d = '1' := by
        have := hb2.1
        simp [isBitChar] at this
        tauto
      have hcd : c = d ∧ bitsToNat cs = bitsToNat ds := by
        rcases hbc with hc | hc <;> rcases hbd with hd | hd <;> subst hc <;> subst hd
        · rw [hif0] at hval
          exact ⟨rfl, by omega⟩
        · rw [hif0, hif1] at hval
          exact absurd hval (by omega)
        · rw [hif1, hif0] at hval
          exact absurd hval (by omega)
        · rw [hif1] at hval
          exact ⟨rfl, by omega⟩
      rw [hcd.1, ih ds hb1.2 hb2.2 hlen hcd.2]

/-- Length of a zero-filled list: the width, unless already longer. -/
theorem zfill_length (l : List Char) (w : Nat) :
    (zfill l w).length = max w l.length := by
  simp [zfill]
  omega

/-- Zero filling preserves the numeric value of a bit list. -/
theorem bitsToNat_zfill (l : List Char) (w : Nat) :
    bitsToNat (zfill l w) = bitsToNat l := bitsToNat_replicate_zero _ l

/-- Every character of pyBinStr is a binary digit. -/
theorem pyBinStr_all (n : Nat) : (pyBinStr n).all isBitChar = true := by
  by_cases hn : n = 0
  · simp [pyBinStr, hn, isBitChar]
  · simp only [pyBinStr, hn, if_false]
    exact natBinList_all n

/-- The digit list of pyBinStr evaluates back to n. -/
theorem bitsToNat_pyBinStr (n : Nat) : bitsToNat (pyBinStr n) = n := by
  by_cases hn : n = 0
  · simp [pyBinStr, hn, bitsToNat]
  · simp only [pyBinStr, hn, if_false]
    exact bitsToNat_natBinList n

/-- pyBinStr of a number below 2 to the w has at most w digits, for a
positive width. -/
theorem pyBinStr_length_le (n w : Nat) (hw : 1 ≤ w) (h : n < 2 ^ w) :
    (pyBinStr n).length ≤ w := by
  by_cases hn : n = 0
  · simp [pyBinStr, hn]
    omega
  · simp only [pyBinStr, hn, if_false]
    exact natBinList_length_le n w h

/-- Zero filling also preserves the bit character predicate. -/
theorem zfill_all (l : List Char) (w : Nat) (hl : l.all isBitChar = true) :
    (zfill l w).all isBitChar = true := by
  simp only [zfill, List.all_append, Bool.and_eq_true]
  refine ⟨?_, hl⟩
  rw [List.all_eq_true]
  intro c hc
  rw [List.eq_of_mem_replicate hc]
  rfl

/-- The canonical encoding of n below 2 to the w at positive width w:
length w, all binary digits, value n. -/
theorem encodeWord_spec (n w : Nat) (hw : 1 ≤ w) (h : n < 2 ^ w) :
    (encodeWord n w).data.length = w ∧
    (encodeWord n w).data.all isBitChar = true ∧
    bitsToNat (encodeWord n w).data = n := by
  have hle := pyBinStr_length_le n w hw h
  refine ⟨?_, zfill_all _ _ (pyBinStr_all n), ?_⟩
  · show (zfill (pyBinStr n) w).length = w
    rw [zfill_length]
    omega
  · show bitsToNat (zfill (pyBinStr n) w) = n
    rw [bitsToNat_zfill, bitsToNat_pyBinStr]

/-- int(s, 2) on a valid bit word returns its unsigned value. -/
theorem intOfString2_valid (s : String) (hne : s.data ≠ [])
    (hb : s.data.all isBitChar = true) :
    intOfString2 s = Except.ok (bitsToNat s.data) := by
  simp [intOfString2, hne, hb]

/-- binary_to_decimal on a valid nonempty bit word returns its
two's-complement signed value. -/
theorem binary_to_decimal_valid (s : String) (hne : s.data ≠ [])
    (hb : s.data.all isBitChar = true) :
    binary_to_decimal s = Except.ok (twoCompVal s) := by
  rw [binary_to_decimal, if_neg hne, intOfString2_valid s hne hb]
  by_cases hh : s.data.head? = some '1'
  · rw [if_pos hh]
    simp [Except.map, twoCompVal, hh]
  · rw [if_neg hh]
    simp [Except.map, twoCompVal, hh]

/-- Unsigned bounds of an 8-bit word, and the lower bound 128 when the
most significant bit is set. -/
theorem unsigned_bounds (s : String) (hs : isWordN s 8 = true) :
    bitsToNat s.data < 256 ∧
    (s.data.head? = some '1' → 128 ≤ bitsToNat s.data) ∧
    (s.data.head? ≠ some '1' → bitsToNat s.data < 128) := by
  simp only [isWordN, Bool.and_eq_true, beq_iff_eq] at hs
  refine ⟨?_, ?_, ?_⟩
  · have := bitsToNat_lt s.data
    rw [hs.1] at this
    exact this
  · intro hh
    rcases hd : s.data with _ | ⟨c, cs⟩
    · rw [hd] at hh
      simp at hh
    · rw [hd] at hh
      have hc : c = '1' := by
        simpa using hh
      have hlen : cs.length = 7 := by
        have h8 := hs.1
        rw [hd] at h8
        simp only [List.length_cons] at h8
        omega
      have hval : bitsToNat (c :: cs) =
          (if c = '1' then 1 else 0) * 2 ^ cs.length + bitsToNat cs := rfl
      have p7 : (2 : Nat) ^ 7 = 128 := by norm_num
      rw [hval, if_pos hc, hlen, p7]
      omega
  · intro hh
    rcases hd : s.data with _ | ⟨c, cs⟩
    · simp [bitsToNat]
    · rw [hd] at hh
      have hc : c ≠ '1' := by
        simpa using hh
      have hlen : cs.length = 7 := by
        have h8 := hs.1
        rw [hd] at h8
        simp only [List.length_cons] at h8
        omega
      have hval : bitsToNat (c :: cs) =
          (if c = '1' then 1 else 0) * 2 ^ cs.length + bitsToNat cs := rfl
      have hcs := bitsToNat_lt cs
      rw [hlen] at hcs
      have p7 : (2 : Nat) ^ 7 = 128 := by norm_num
      rw [p7] at hcs
      rw [hval, if_neg hc, hlen]
      omega

/-- Signed bounds of an 8-bit word: between -128 and 127. -/
theorem twoCompVal_bounds (s : String) (hs : isWordN s 8 = true) :
    -128 ≤ twoCompVal s ∧ twoCompVal s < 128 := by
  obtain ⟨hu, hm, hm0⟩ := unsigned_bounds s hs
  simp only [isWordN, Bool.and_eq_true, beq_iff_eq] at hs
  rw [twoCompVal]
  by_cases hh : s.data.head? = some '1'
  · rw [if_pos hh, hs.1]
    have h128 := hm hh
    have p8 : (2 : Int) ^ (8 : Nat) = 256 := by norm_num
    rw [p8]
    omega
  · rw [if_neg hh]
    have := hm0 hh
    omega

/-- A word of positive declared width has a nonempty character list. -/
theorem wordN_ne_nil (s : String) (n : Nat) (hn : n ≠ 0)
    (hs : isWordN s n = true) : s.data ≠ [] := by
  simp only [isWordN, Bool.and_eq_true, beq_iff_eq] at hs
  intro he
  rw [he] at hs
  simp at hs
  omega

/-- A word of declared width n has all-bit data. -/
theorem wordN_all (s : String) (n : Nat) (hs : isWordN s n = true) :
    s.data.all isBitChar = true := by
  simp only [isWordN, Bool.and_eq_true, beq_iff_eq] at hs
  exact hs.2

/-- decimal_to_binary on a nonnegative value is the canonical encoding. -/
theorem decimal_to_binary_nonneg (v : Int) (w : Nat) (h0 : 0 ≤ v) :
    decimal_to_binary v w = encodeWord v.toNat w := by
  rw [decimal_to_binary, if_neg (not_lt.mpr h0), pyBinDrop2, if_neg (not_lt.mpr h0)]
  rfl

/-- decimal_to_binary on a negative value at least minus 2 to the w is the
canonical encoding of the value plus 2 to the w. -/
theorem decimal_to_binary_neg (v : Int) (w : Nat) (hneg : v < 0)
    (hlo : -(2 ^ w) ≤ v) :
    decimal_to_binary v w = encodeWord (v + 2 ^ w).toNat w := by
  rw [decimal_to_binary, if_pos hneg, pyBinDrop2,
    if_neg (not_lt.mpr (by omega : (0 : Int) ≤ v + 2 ^ w))]
  rfl

/-- Taking the first 8 characters of the width-8 encoding of a value below
256 changes nothing, and re-wrapping in String.mk gives the word back. -/
theorem encodeWord_take8 (m : Nat) (h : m < 256) :
    String.mk ((encodeWord m 8).data.take 8) = encodeWord m 8 := by
  obtain ⟨hlen, _, _⟩ := encodeWord_spec m 8 (by omega) (by norm_num; omega)
  rw [List.take_of_length_le (le_of_eq hlen)]

/-- The 8-character truncation step of the ALU encode equals the wrap of
the arithmetic result modulo 256, for results in the reachable range. -/
theorem alu_encode (r : Int) (hlo : -256 ≤ r) (hhi : r < 256) :
    String.mk ((decimal_to_binary r 8).data.take 8) =
      encodeWord ((r % 256).toNat) 8 := by
  by_cases hneg : r < 0
  · have hp : (2 : Int) ^ (8 : Nat) = 256 := by norm_num
    have he : decimal_to_binary r 8 = encodeWord (r + 2 ^ 8).toNat 8 :=
      decimal_to_binary_neg r 8 hneg (by rw [hp]; omega)
    have hm : r % 256 = r + 256 := by omega
    rw [he, hp] at *
    rw [hm]
    exact encodeWord_take8 (r + 256).toNat (by omega)
  · have he : decimal_to_binary r 8 = encodeWord r.toNat 8 :=
      decimal_to_binary_nonneg r 8 (by omega)
    have hm : r % 256 = r := by omega
    rw [he, hm]
    exact encodeWord_take8 r.toNat (by omega)

/-- ALU read on valid 8-bit operand words: the add result is the
two's-complement sum wrapped modulo 256, the sub result the wrapped
difference. -/
theorem alu_read_eq (a b : String) (ha : isWordN a 8 = true)
    (hb : isWordN b 8 = true) :
    ALU.read a b "add" =
      Except.ok (encodeWord (((twoCompVal a + twoCompVal b) % 256).toNat) 8) ∧
    ALU.read a b "sub" =
      Except.ok (encodeWord (((twoCompVal a - twoCompVal b) % 256).toNat) 8) := by
  have hda := binary_to_decimal_valid a (wordN_ne_nil a 8 (by omega) ha) (wordN_all a 8 ha)
  have hdb := binary_to_decimal_valid b (wordN_ne_nil b 8 (by omega) hb) (wordN_all b 8 hb)
  obtain ⟨ha1, ha2⟩ := twoCompVal_bounds a ha
  obtain ⟨hb1, hb2⟩ := twoCompVal_bounds b hb
  constructor
  · rw [ALU.read, ALU.update, hda, hdb]
    simp only [Except.bind, if_true]
    rw [alu_encode (twoCompVal a + twoCompVal b) (by omega) (by omega)]
  · rw [ALU.read, ALU.update, hda, hdb]
    simp only [Except.bind, if_true]
    rw [if_neg (show ¬("sub" : String) = "add" from by decide)]
    show Except.ok (String.mk ((decimal_to_binary (twoCompVal a - twoCompVal b) 8).data.take 8)) =
      Except.ok (encodeWord ((twoCompVal a - twoCompVal b) % 256).toNat 8)
    rw [alu_encode (twoCompVal a - twoCompVal b) (by omega) (by omega)]

/-- A nonnegative in-range Python index normalises to itself. -/
theorem pyNormIdx_nonneg (len : Nat) (i : Int) (h : 0 ≤ i ∧ i < (len : Int)) :
    pyNormIdx len i = some i.toNat ∧ i.toNat < len := by
  rw [pyNormIdx, if_pos h]
  exact ⟨rfl, by omega⟩

/-- A negative Python index counting from the end normalises to the
length plus the index. -/
theorem pyNormIdx_negidx (len : Nat) (i : Int)
    (h : -(len : Int) ≤ i ∧ i < 0) :
    pyNormIdx len i = some (i + len).toNat ∧ (i + len).toNat < len := by
  rw [pyNormIdx, if_neg (by omega), if_pos h]
  exact ⟨rfl, by omega⟩

/-- An index at least the length or below minus the length is an
IndexError. -/
theorem pyNormIdx_oob (len : Nat) (i : Int)
    (h : (len : Int) ≤ i ∨ i < -(len : Int)) :
    pyNormIdx len i = none := by
  rw [pyNormIdx, if_neg (by omega), if_neg (by omega)]

/-- RAM read at an index that normalises in range returns the stored word. -/
theorem ram_read_ok (r : RAM) (k : Nat) (hk : k < r.state.length) (i : Int)
    (hnorm : pyNormIdx r.state.length i = some k) :
    r.read i = Except.ok (r.state.get ⟨k, hk⟩) := by
  simp only [RAM.read, hnorm, List.get?_eq_get hk]

/-- RAM write of an 8-character word at an index that normalises in range
replaces exactly that cell. -/
theorem ram_write_ok (r : RAM) (d : String) (hd : d.length = 8) (k : Nat)
    (i : Int) (hnorm : pyNormIdx r.state.length i = some k) :
    r.write d i = Except.ok ⟨r.state.set k d⟩ := by
  simp only [RAM.write, if_pos hd, hnorm]

/-- int(s, 16) on a valid nonempty hexadecimal word returns its value. -/
theorem intOfString16_valid (s : String) (hne : s.data ≠ [])
    (hh : s.data.all (fun c => (hexDigitVal c).isSome) = true) :
    intOfString16 s = Except.ok (hexNatVal s.data) := by
  simp [intOfString16, hne, hh]

/-- Taking all but the last k digits of the digit list of n yields the
digit list of n divided by 2 to the k. -/
theorem natBinList_take (n k : Nat) (h : k ≤ (natBinList n).length) :
    (natBinList n).take ((natBinList n).length - k) = natBinList (n / 2 ^ k) := by
  induction k generalizing n with
  | zero =>
    simp only [Nat.sub_zero, List.take_length, pow_zero, Nat.div_one]
  | succ k ih =>
    by_cases hn : n = 0
    · rw [hn] at h
      simp [natBinList, natBinAux] at h
    · rw [natBinList_succ n hn] at h ⊢
      rw [List.length_append] at h ⊢
      simp only [List.length_cons, List.length_nil] at h ⊢
      rw [List.take_append_of_le_length (by omega)]
      have heq : (natBinList (n / 2)).length + 1 - (k + 1) =
          (natBinList (n / 2)).length - k := by omega
      rw [heq, ih (n / 2) (by omega)]
      congr 1
      rw [Nat.div_div_eq_div_mul, pow_succ, Nat.mul_comm]

/-- A word's declared length. -/
theorem wordN_len (s : String) (n : Nat) (hs : isWordN s n = true) :
    s.data.length = n := by
  simp only [isWordN, Bool.and_eq_true, beq_iff_eq] at hs
  exact hs.1

/-- Encoding the value of an all-bit word at its own length recovers the
word: padding restores the leading zeros dropped by the digit conversion. -/
theorem encodeWord_bitsToNat (s : String) (w : Nat) (hw : 1 ≤ w)
    (hlen : s.data.length = w) (hall : s.data.all isBitChar = true) :
    encodeWord (bitsToNat s.data) w = s := by
  have hlt : bitsToNat s.data < 2 ^ w := by
    rw [← hlen]
    exact bitsToNat_lt _
  obtain ⟨l1, a1, v1⟩ := encodeWord_spec (bitsToNat s.data) w hw hlt
  have hdata : (encodeWord (bitsToNat s.data) w).data = s.data :=
    bits_inj _ _ a1 hall (by rw [l1, hlen]) (by rw [v1])
  calc encodeWord (bitsToNat s.data) w
      = String.mk (encodeWord (bitsToNat s.data) w).data := rfl
    _ = String.mk s.data := by rw [hdata]
    _ = s := rfl

/-- Re-encoding the two's-complement value of a valid 8-bit word at width
8 yields the word itself. -/
theorem decode_encode (s : String) (hs : isWordN s 8 = true) :
    decimal_to_binary (twoCompVal s) 8 = s := by
  obtain ⟨hu, hm, hm0⟩ := unsigned_bounds s hs
  have hlen := wordN_len s 8 hs
  have hall := wordN_all s 8 hs
  have p8 : (2 : Int) ^ (8 : Nat) = 256 := by norm_num
  by_cases hh : s.data.head? = some '1'
  · have htc : twoCompVal s = (bitsToNat s.data : Int) - 2 ^ s.data.length := by
      rw [twoCompVal, if_pos hh]
    have h128 := hm hh
    rw [htc, hlen]
    have hneg : (bitsToNat s.data : Int) - 2 ^ (8 : Nat) < 0 := by
      rw [p8]
      omega
    rw [decimal_to_binary_neg _ 8 hneg (by rw [p8]; omega)]
    have htn : ((bitsToNat s.data : Int) - 2 ^ (8 : Nat) + 2 ^ (8 : Nat)).toNat =
        bitsToNat s.data := by
      rw [p8]
      omega
    rw [htn]
    exact encodeWord_bitsToNat s 8 (by omega) hlen hall
  · have htc : twoCompVal s = (bitsToNat s.data : Int) := by
      rw [twoCompVal, if_neg hh]
    rw [htc]
    rw [decimal_to_binary_nonneg _ 8 (by omega)]
    have htn : ((bitsToNat s.data : Int)).toNat = bitsToNat s.data := by omega
    rw [htn]
    exact encodeWord_bitsToNat s 8 (by omega) hlen hall

/-- C1: for all 8-bit two's-complement operand words held in the a and b
registers, ALU.read recomputes from the current operand values (the
embedding of read is update followed by returning the new state, so the
result is never stale) and returns the 8-bit word equal to a plus b (mode
add) or a minus b (mode sub) wrapped modulo 2^8; in particular 5 add 3
returns 00001000 and 3 sub 5 returns 11111110. -/
theorem C1_alu_read_wraps (a b : String) (ha : isWordN a 8 = true)
    (hb : isWordN b 8 = true) :
    (ALU.read a b "add" =
       Except.ok (encodeWord (((twoCompVal a + twoCompVal b) % 256).toNat) 8) ∧
     ALU.read a b "sub" =
       Except.ok (encodeWord (((twoCompVal a - twoCompVal b) % 256).toNat) 8)) ∧
    ALU.read "00000101" "00000011" "add" = Except.ok "00001000" ∧
    ALU.read "00000011" "00000101" "sub" = Except.ok "11111110" :=
  ⟨alu_read_eq a b ha hb, rfl, rfl⟩

/-- Witness for C1 at the concrete operands 127 and 1. -/
theorem C1_witness :
    ALU.read "01111111" "00000001" "add" =
      Except.ok
        (encodeWord (((twoCompVal "01111111" + twoCompVal "00000001") % 256).toNat) 8) :=
  ((C1_alu_read_wraps "01111111" "00000001" (by decide) (by decide)).1).1

/-- C2: for every 8-character bit string, decoding as a two's-complement
signed integer and re-encoding at width 8 is the identity. -/
theorem C2_codec_roundtrip (s : String) (hs : isWordN s 8 = true) :
    (binary_to_decimal s).map (fun v => decimal_to_binary v 8) = Except.ok s := by
  rw [binary_to_decimal_valid s (wordN_ne_nil s 8 (by omega) hs) (wordN_all s 8 hs)]
  simp only [Except.map]
  rw [decode_encode s hs]

/-- Witness for C2 at the concrete word 10110101. -/
theorem C2_witness :
    (binary_to_decimal "10110101").map (fun v => decimal_to_binary v 8) =
      Except.ok "10110101" :=
  C2_codec_roundtrip "10110101" (by decide)

/-- C3 counterexample: the operand words 10000000 and 00000000 have
unsigned decimal sum 128, which exceeds 127, yet FlagCarry.update
computes state 0 and read returns it, because the source decodes the
operands with binary_to_decimal, that is as signed two's-complement
values (here -128 and 0), not as unsigned values. -/
theorem C3_counterexample :
    127 < unsignedVal "10000000" + unsignedVal "00000000" ∧
    (FlagCarry.update "10000000" "00000000").map FlagCarry.read =
      Except.ok 0 :=
  ⟨by decide, rfl⟩

/-- C3 amended: FlagCarry.update sets the flag to 1 exactly when the
signed two's-complement sum of the two operand words exceeds 127, and a
read after the update returns that freshly set value. -/
theorem C3_carry_signed_sum (a b : String) (ha : isWordN a 8 = true)
    (hb : isWordN b 8 = true) :
    (FlagCarry.update a b).map FlagCarry.read =
      Except.ok (if 127 < twoCompVal a + twoCompVal b then 1 else 0) := by
  have hda := binary_to_decimal_valid a (wordN_ne_nil a 8 (by omega) ha) (wordN_all a 8 ha)
  have hdb := binary_to_decimal_valid b (wordN_ne_nil b 8 (by omega) hb) (wordN_all b 8 hb)
  rw [FlagCarry.update, hda, hdb]
  simp only [Except.bind, Except.map, FlagCarry.read]
  have h127 : (2 : Int) ^ 7 - 1 = 127 := by norm_num
  rw [h127]

/-- Witness for C3 amended at operands 64 and 64: signed sum 128. -/
theorem C3_witness :
    (FlagCarry.update "01000000" "01000000").map FlagCarry.read =
      Except.ok
        (if 127 < twoCompVal "01000000" + twoCompVal "01000000" then 1 else 0) :=
  C3_carry_signed_sum "01000000" "01000000" (by decide) (by decide)

/-- C4: the claim describes the intended Minus flag behaviour, but the
source's read executes self.update(self), passing an extra positional
argument to the zero-argument update method, so every FlagMinus.read
raises TypeError; the update computation itself yields the claimed values
(state 1 for the encoding of -1, state 0 for the encoding of 1). -/
theorem C4_minus_flag_read_bug :
    decimal_to_binary (-1) 8 = "11111111" ∧
    FlagMinus.read "11111111" = Except.error PyError.typeError ∧
    FlagMinus.update "11111111" = Except.ok 1 ∧
    decimal_to_binary 1 8 = "00000001" ∧
    FlagMinus.update "00000001" = Except.ok 0 :=
  ⟨rfl, rfl, rfl, rfl, rfl⟩

/-- C8: ProgramCounter.advance decodes the stored 4-bit word as unsigned,
increments modulo 16, re-encodes zero-padded at width 4; it never fails
on a 4-bit bit string, and 16 consecutive advances from 0000 return to
0000. -/
theorem C8_program_counter (s : String) (hs : isWordN s 4 = true) :
    ProgramCounter.advance s =
      Except.ok (encodeWord ((unsignedVal s + 1) % 16) 4) ∧
    pcIterate 16 "0000" = Except.ok "0000" := by
  constructor
  · rw [ProgramCounter.advance,
      intOfString2_valid s (wordN_ne_nil s 4 (by omega) hs) (wordN_all s 4 hs)]
    rfl
  · rfl

/-- Witness for C8 at the concrete word 0101. -/
theorem C8_witness :
    ProgramCounter.advance "0101" =
      Except.ok (encodeWord ((unsignedVal "0101" + 1) % 16) 4) :=
  (C8_program_counter "0101" (by decide)).1

/-- C5 counterexample: the 8-character string abcdefgh is not a bit
string, yet RAM.write accepts it (only type and length are asserted) and
stores it verbatim, so wrong-alphabet data does not fail validation. -/
theorem C5_counterexample :
    isBitString "abcdefgh" = false ∧ String.length "abcdefgh" = 8 ∧
    (RAM.new.write "abcdefgh" 0).bind (fun r2 => r2.read 0) =
      Except.ok "abcdefgh" :=
  ⟨rfl, rfl, rfl⟩

/-- C5 amended: for an in-range address, RAM.write fails with the
validation AssertionError exactly when the data string does not have
length 8; the alphabet of the characters is not checked, so any length-8
string - in particular every valid 8-character bit string - is stored at
the address and read back verbatim. -/
theorem C5_ram_write_validation (r : RAM) (d : String) (i : Int)
    (hr : r.state.length = 16) (hi : 0 ≤ i ∧ i < 16) :
    (d.length ≠ 8 → r.write d i = Except.error PyError.assertionError) ∧
    (d.length = 8 → (r.write d i).bind (fun r2 => r2.read i) = Except.ok d) := by
  constructor
  · intro hlen
    rw [RAM.write, if_neg hlen]
  · intro hlen
    have hnorm := pyNormIdx_nonneg r.state.length i (by omega)
    rw [ram_write_ok r d hlen i.toNat i hnorm.1]
    simp only [Except.bind]
    have hk : i.toNat < (r.state.set i.toNat d).length := by
      rw [List.length_set]
      exact hnorm.2
    have hget : (r.state.set i.toNat d).get? i.toNat = some d :=
      List.get?_set_eq_of_lt d hnorm.2
    have hnorm2 : pyNormIdx (r.state.set i.toNat d).length i = some i.toNat := by
      rw [List.length_set]
      exact hnorm.1
    show RAM.read ⟨r.state.set i.toNat d⟩ i = Except.ok d
    simp only [RAM.read, hnorm2, hget]

/-- Witness for C5 amended at a fresh RAM, word 11110000, address 3. -/
theorem C5_witness :
    (RAM.new.write "11110000" 3).bind (fun r2 => r2.read 3) =
      Except.ok "11110000" :=
  (C5_ram_write_validation RAM.new "11110000" 3 (by decide) (by omega)).2 (by decide)

/-- C6 counterexample: the negative address -1 does not raise an indexing
error: reading it succeeds (returning the word at address 15 of a fresh
RAM), and writing through it overwrites address 15, because Python list
indexing lets indices from -16 to -1 count from the end. -/
theorem C6_counterexample :
    RAM.new.read (-1) = Except.ok "00000000" ∧
    (RAM.new.write "11111111" (-1)).bind (fun r2 => r2.read 15) =
      Except.ok "11111111" :=
  ⟨rfl, rfl⟩

/-- C6 amended: RAM.read, and RAM.write with valid data, fail with an
IndexError exactly for addresses at least 16 or strictly below -16; for
addresses in the interval from 0 to 15 both succeed, and - unlike the
claim - so do negative addresses from -16 to -1, which alias the cells
counted from the end. -/
theorem C6_ram_index_bounds (r : RAM) (d : String) (i : Int)
    (hr : r.state.length = 16) (hd : d.length = 8) :
    ((16 ≤ i ∨ i < -16) →
      r.read i = Except.error PyError.indexError ∧
      r.write d i = Except.error PyError.indexError) ∧
    ((0 ≤ i ∧ i < 16) →
      exceptOk (r.read i) = true ∧ exceptOk (r.write d i) = true) ∧
    ((-16 ≤ i ∧ i < 0) →
      exceptOk (r.read i) = true ∧ exceptOk (r.write d i) = true) := by
  refine ⟨?_, ?_, ?_⟩
  · intro hoob
    have hnone : pyNormIdx r.state.length i = none := pyNormIdx_oob _ _ (by omega)
    constructor
    · rw [RAM.read, hnone]
    · rw [RAM.write, if_pos hd, hnone]
  · intro hin
    have h := pyNormIdx_nonneg r.state.length i (by omega)
    rw [ram_read_ok r i.toNat h.2 i h.1, ram_write_ok r d hd i.toNat i h.1]
    exact ⟨rfl, rfl⟩
  · intro hin
    have h := pyNormIdx_negidx r.state.length i (by omega)
    rw [ram_read_ok r _ h.2 i h.1, ram_write_ok r d hd _ i h.1]
    exact ⟨rfl, rfl⟩

/-- Witness for C6 amended: address 16 fails for read and write. -/
theorem C6_witness :
    RAM.new.read 16 = Except.error PyError.indexError ∧
    RAM.new.write "10101010" 16 = Except.error PyError.indexError :=
  (C6_ram_index_bounds RAM.new "10101010" 16 (by decide) (by decide)).1 (by omega)

/-- C10: RAM writes are local to their address: writing valid data at an
in-range address i leaves the word read at every other in-range address j
unchanged. -/
theorem C10_ram_write_frame (r : RAM) (d : String) (i j : Int)
    (hr : r.state.length = 16) (hd : d.length = 8)
    (hi : 0 ≤ i ∧ i < 16) (hj : 0 ≤ j ∧ j < 16) (hij : j ≠ i) :
    ∃ r2, r.write d i = Except.ok r2 ∧ r2.read j = r.read j := by
  have hni := pyNormIdx_nonneg r.state.length i (by omega)
  refine ⟨⟨r.state.set i.toNat d⟩, ram_write_ok r d hd i.toNat i hni.1, ?_⟩
  have hlen : (r.state.set i.toNat d).length = r.state.length :=
    List.length_set _ _ _
  have hnj := pyNormIdx_nonneg r.state.length j (by omega)
  have hget : (r.state.set i.toNat d).get? j.toNat = r.state.get? j.toNat :=
    List.get?_set_ne d r.state (by omega)
  show RAM.read ⟨r.state.set i.toNat d⟩ j = RAM.read r j
  simp only [RAM.read, hlen, hnj.1, hget]

/-- Witness for C10 at a fresh RAM, writing address 3 and reading 5. -/
theorem C10_witness :
    ∃ r2, RAM.new.write "10101010" 3 = Except.ok r2 ∧
      r2.read 5 = RAM.new.read 5 :=
  C10_ram_write_frame RAM.new "10101010" 3 5 (by decide) (by decide)
    (by omega) (by omega) (by omega)

/-- C7 counterexample: on the input 100 at width 4 the code returns 1000,
the first four characters of 100000000, that is the high-order bits of
the parsed value 256; discarding the high-order bits as the claim states
would give the encoding of 256 mod 16, which is 0000.  Moreover the
inputs 0 (stripped to nothing, ValueError instead of a width-4 string)
and x5 (no literal 0x prefix, yet parsed as 5) contradict the claimed
prefix stripping. -/
theorem C7_counterexample :
    hex_to_binary "100" 4 = Except.ok "1000" ∧
    encodeWord (256 % 2 ^ 4) 4 = "0000" ∧
    ("1000" : String) ≠ "0000" ∧
    hex_to_binary "0" 4 = Except.error PyError.valueError ∧
    hex_to_binary "x5" 4 = Except.ok "0101" :=
  ⟨rfl, rfl, by decide, rfl, rfl⟩

/-- C7 amended: hexToBinary removes every leading 0 or x character, not
just a literal 0x prefix; if nothing remains it raises ValueError;
otherwise it parses the remaining hexadecimal digits in base 16,
converts to binary, left-pads with zeros and keeps the first width
characters, so a value fitting in width bits is returned zero-padded,
and a value needing more bits keeps its high-order bits: the result
encodes the value divided by 2 to the number of excess bits. -/
theorem C7_hex_to_binary_behavior (h : String) (w : Nat) (hw : 1 ≤ w) :
    (lstrip0x h = [] → hex_to_binary h w = Except.error PyError.valueError) ∧
    ((lstrip0x h).all (fun c => (hexDigitVal c).isSome) = true →
      lstrip0x h ≠ [] →
      (hexNatVal (lstrip0x h) < 2 ^ w →
        hex_to_binary h w = Except.ok (encodeWord (hexNatVal (lstrip0x h)) w)) ∧
      (2 ^ w ≤ hexNatVal (lstrip0x h) →
        ∃ out : String, hex_to_binary h w = Except.ok out ∧
          out.data.length = w ∧
          bitsToNat out.data =
            hexNatVal (lstrip0x h) /
              2 ^ ((natBinList (hexNatVal (lstrip0x h))).length - w))) := by
  constructor
  · intro he
    rw [hex_to_binary, intOfString16,
      if_neg (fun hcon => hcon.1 (he : (String.mk (lstrip0x h)).data = []))]
    rfl
  · intro hhex hne
    have hvalid : intOfString16 (String.mk (lstrip0x h)) =
        Except.ok (hexNatVal (lstrip0x h)) :=
      intOfString16_valid (String.mk (lstrip0x h)) hne hhex
    constructor
    · intro hfit
      rw [hex_to_binary, hvalid]
      simp only [Except.map]
      have hlen := pyBinStr_length_le (hexNatVal (lstrip0x h)) w hw hfit
      have hzl : (zfill (pyBinStr (hexNatVal (lstrip0x h))) w).length = w := by
        rw [zfill_length]
        omega
      rw [List.take_of_length_le (le_of_eq hzl)]
      rfl
    · intro hbig
      set v := hexNatVal (lstrip0x h) with hv
      have hvne : v ≠ 0 := by
        have : (0 : Nat) < 2 ^ w := Nat.pos_pow_of_pos w (by omega)
        omega
      have hps : pyBinStr v = natBinList v := by
        rw [pyBinStr, if_neg hvne]
      have hvlt : v < 2 ^ (natBinList v).length := by
        have := bitsToNat_lt (natBinList v)
        rw [bitsToNat_natBinList] at this
        exact this
      have hwL : w ≤ (natBinList v).length := by
        by_contra hcon
        push_neg at hcon
        have : (2 : Nat) ^ (natBinList v).length ≤ 2 ^ w :=
          Nat.pow_le_pow_right (by omega) (by omega)
        omega
      have hzfill : zfill (pyBinStr v) w = natBinList v := by
        rw [hps, zfill, Nat.sub_eq_zero_of_le hwL]
        rfl
      have htake : (natBinList v).take w =
          natBinList (v / 2 ^ ((natBinList v).length - w)) := by
        have := natBinList_take v ((natBinList v).length - w) (by omega)
        have heq : (natBinList v).length - ((natBinList v).length - w) = w := by
          omega
        rw [heq] at this
        exact this
      refine ⟨String.mk ((natBinList v).take w), ?_, ?_, ?_⟩
      · rw [hex_to_binary, hvalid]
        simp only [Except.map]
        rw [hzfill]
      · show ((natBinList v).take w).length = w
        rw [List.length_take]
        omega
      · show bitsToNat ((natBinList v).take w) = _
        rw [htake, bitsToNat_natBinList]

/-- Witness for C7 amended: the input ff at width 8 encodes 255. -/
theorem C7_witness :
    hex_to_binary "ff" 8 = Except.ok (encodeWord (hexNatVal (lstrip0x "ff")) 8) :=
  (((C7_hex_to_binary_behavior "ff" 8 (by omega)).2 (by decide) (by decide)).1)
    (by decide)

/-- C9 counterexample: with correctly-typed inputs, the ALU raises
UnboundLocalError on a mode string other than add or sub (the result
variable is never assigned), and FlagMinus.read on a register holding a
valid word raises TypeError, so registers, ALU and flags can fail. -/
theorem C9_counterexample :
    ALU.read "00000000" "00000000" "mul" = Except.error PyError.unboundLocal ∧
    FlagMinus.read "00000001" = Except.error PyError.typeError :=
  ⟨rfl, rfl⟩

/-- C9 amended: apart from the Memory Block's validation and indexing
errors, the operations do not raise on valid words with the supported
modes: ALU read with add or sub, the Carry flag update, the Zero flag
read, ProgramCounter.advance on a 4-bit word and RingCounter.advance
with a positive modulus all complete; however ALU read with any other
mode string raises UnboundLocalError, and FlagMinus.read always raises
TypeError. -/
theorem C9_totality_amended :
    (∀ a b : String, isWordN a 8 = true → isWordN b 8 = true →
      exceptOk (ALU.read a b "add") = true ∧
      exceptOk (ALU.read a b "sub") = true ∧
      exceptOk (FlagCarry.update a b) = true) ∧
    (∀ s : String, isWordN s 8 = true →
      exceptOk (FlagZero.read s) = true ∧
      FlagMinus.read s = Except.error PyError.typeError) ∧
    (∀ s : String, isWordN s 4 = true →
      exceptOk (ProgramCounter.advance s) = true) ∧
    (∀ n st : Nat, 0 < n → exceptOk (RingCounter.advance n st) = true) ∧
    (∀ a b mode : String, isWordN a 8 = true → isWordN b 8 = true →
      mode ≠ "add" → mode ≠ "sub" →
      ALU.read a b mode = Except.error PyError.unboundLocal) := by
  refine ⟨?_, ?_, ?_, ?_, ?_⟩
  · intro a b ha hb
    obtain ⟨h1, h2⟩ := alu_read_eq a b ha hb
    rw [h1, h2]
    have hda := binary_to_decimal_valid a (wordN_ne_nil a 8 (by omega) ha)
      (wordN_all a 8 ha)
    have hdb := binary_to_decimal_valid b (wordN_ne_nil b 8 (by omega) hb)
      (wordN_all b 8 hb)
    rw [FlagCarry.update, hda, hdb]
    exact ⟨rfl, rfl, rfl⟩
  · intro s hs
    have hds := binary_to_decimal_valid s (wordN_ne_nil s 8 (by omega) hs)
      (wordN_all s 8 hs)
    rw [FlagZero.read, FlagZero.update, hds]
    exact ⟨rfl, rfl⟩
  · intro s hs
    rw [ProgramCounter.advance,
      intOfString2_valid s (wordN_ne_nil s 4 (by omega) hs) (wordN_all s 4 hs)]
    rfl
  · intro n st hn
    rw [RingCounter.advance, if_neg (by omega)]
    rfl
  · intro a b mode ha hb hm1 hm2
    have hda := binary_to_decimal_valid a (wordN_ne_nil a 8 (by omega) ha)
      (wordN_all a 8 ha)
    have hdb := binary_to_decimal_valid b (wordN_ne_nil b 8 (by omega) hb)
      (wordN_all b 8 hb)
    rw [ALU.read, ALU.update, hda, hdb]
    simp only [Except.bind]
    rw [if_neg hm1, if_neg hm2]

/-- Witness for C9 amended at concrete valid operands. -/
theorem C9_witness :
    exceptOk (ALU.read "00000000" "11111111" "add") = true :=
  ((C9_totality_amended.1) "00000000" "11111111" (by decide) (by decide)).1
